import Mathlib

/-!
# ingestAdmin: the lock transition of the ingestion admin command

The source is one Go function,

    func ingestAdmin(root string) error {
      _ = "--resume"
      _ = "ingest.state.json"
      src := filepath.Join(root, "in")
      dst := filepath.Join(root, "locked")
      return os.Rename(src, dst)
    }

Its whole behaviour is the behaviour of `filepath.Join` followed by `os.Rename`
on the file system of the machine.  The development below embeds

* `Clean` and `Join` of Go's `path/filepath` (Unix flavour) on strings,
* a file system: a finite table from absolute paths to nodes, together with
  the working directory of the process and the refusals of the kernel (the
  directories the process may not change, the entries that cannot be moved
  or replaced),
* path resolution of the kernel (`namei`), `Lstat`, the `rename(2)` system
  call (`sysRename`) and Go's `os.Rename` wrapper (`osRename`),
* `ingestAdmin` itself.

Scope of the file-system model: no symbolic or hard links, every directory
may be searched (path resolution itself is never refused), the file system
is mounted read-write (a read-only mount answers `EROFS` before the source
is looked up), no limits on name length, no NUL bytes in names, and a single
process (nothing changes between two system calls of one `os.Rename`).
`EXDEV` cannot arise: `root/in` and `root/locked` have the same parent
directory, and a mount point among them is refused with `EBUSY`.
-/

namespace IngestAdmin

/-! ## Strings and path syntax -/

/-- Split a character sequence at every `/`; the pieces may be empty. -/
def splitSlash : List Char → List (List Char)
  | [] => [[]]
  | c :: cs =>
    if c = '/' then [] :: splitSlash cs
    else
      match splitSlash cs with
      | [] => [[c]]
      | w :: ws => (c :: w) :: ws

/-- The `/`-separated elements of a path string, empty ones included. -/
def elements (s : String) : List String :=
  (splitSlash s.data).map String.mk

/-- Go `strings.Join(elems, "/")` on character sequences. -/
def joinSlash : List (List Char) → List Char
  | [] => []
  | [w] => w
  | w :: w2 :: ws => w ++ '/' :: joinSlash (w2 :: ws)

/-- Go `strings.Join(elems, string(Separator))`. -/
def stringsJoin (elems : List String) : String :=
  String.mk (joinSlash (elems.map String.data))

/-- Go `os.IsPathSeparator(path[0])` for a non-empty path. -/
def isRooted (s : String) : Bool :=
  match s.data with
  | c :: _ => c == '/'
  | [] => false

/-- One iteration of the loop of `filepath.Clean`, on whole path elements:
`out` is the output written so far. An empty element and `.` are skipped,
`..` removes the last real element when there is one, is dropped at the root
of a rooted path and is kept otherwise, and a real element is appended. -/
def cleanStep (rooted : Bool) (out : List String) (c : String) : List String :=
  if c = "" ∨ c = "." then out
  else if c = ".." then
    match out.getLast? with
    | some l => if l = ".." then out ++ [".."] else out.dropLast
    | none => if rooted then out else out ++ [".."]
  else out ++ [c]

/-- The elements `filepath.Clean` keeps for the path `s`. -/
def cleanElements (s : String) : List String :=
  (elements s).foldl (cleanStep (isRooted s)) []

/-- The string `filepath.Clean` builds from the kept elements. -/
def render (rooted : Bool) (out : List String) : String :=
  match out with
  | [] => if rooted then "/" else "."
  | _ :: _ => (if rooted then "/" else "") ++ stringsJoin out

/-- Go `filepath.Clean` (Unix). -/
def Clean (path : String) : String :=
  if path = "" then "."
  else render (isRooted path) (cleanElements path)

/-- Go `filepath.Join` (Unix): the elements before the first non-empty one are
ignored, the rest is joined with `/` and cleaned. -/
def Join : List String → String
  | [] => ""
  | e :: es => if e = "" then Join es else Clean (stringsJoin (e :: es))

/-! ## File system -/

/-- Error numbers of the system calls in play. -/
inductive Errno
  | ENOENT | ENOTDIR | EEXIST | EINVAL | EBUSY | EISDIR | ENOTEMPTY
  | EACCES | EPERM | ENOSPC | EIO
  deriving DecidableEq, Repr

/-- A node of the file system: a regular file with its contents, or a
directory (its entries are the table rows one element below it). -/
inductive Node
  | file (content : String)
  | dir
  deriving DecidableEq, Repr

/-- An absolute location: the names from the root directory down. -/
abbrev Path := List String

/-- The table of a file system. The root directory `[]` is always there. -/
abbrev FS := List (Path × Node)

/-- A table of refusals: locations, each with the error the kernel answers
with. -/
abbrev Refusals := List (Path × Errno)

/-- The state a system call sees: the table, the working directory and the
refusals of the kernel. A row of `denied` is a directory whose entries the
process may not change: `EACCES` where it has no write permission, `EPERM`
where the directory is sticky, append-only or immutable. A row of `pinned`
is an entry that cannot be moved or replaced: `EBUSY` for a mount point,
`ENOSPC` or `EIO` where the file system itself fails the operation. -/
structure State where
  cwd : Path
  fs : FS
  denied : Refusals
  pinned : Refusals
  deriving DecidableEq, Repr

/-- First row of the table with the given key. -/
def find : FS → Path → Option Node
  | [], _ => none
  | (q, n) :: rest, p => if q = p then some n else find rest p

/-- First row of a table of refusals with the given key. -/
def refusalAt : Refusals → Path → Option Errno
  | [], _ => none
  | (q, e) :: rest, p => if q = p then some e else refusalAt rest p

/-- The node at an absolute location. -/
def nodeAt (fs : FS) (p : Path) : Option Node :=
  if p = [] then some Node.dir else find fs p

/-- One step of a path walk from the directory `cur`. -/
def step (cur : Path) (c : String) : Path :=
  if c = "." then cur
  else if c = ".." then cur.dropLast
  else cur ++ [c]

/-- Walk the elements `cs` from `cur`. Every location a step is taken from
must be a directory. The final location is returned unchecked. -/
def walk (fs : FS) : Path → List String → Except Errno Path
  | cur, [] => Except.ok cur
  | cur, c :: cs =>
    match nodeAt fs cur with
    | none => Except.error Errno.ENOENT
    | some (Node.file _) => Except.error Errno.ENOTDIR
    | some Node.dir => walk fs (step cur c) cs

/-- The elements the kernel walks: runs of `/` count once. A trailing `/`
is not given a meaning of its own; `Join` never produces one. -/
def walkElements (p : String) : List String :=
  (elements p).filter (fun c => c ≠ "")

/-- Kernel path resolution without following a final link: the absolute
location a path string names, whether or not something is there. -/
def namei (st : State) (p : String) : Except Errno Path :=
  if p = "" then Except.error Errno.ENOENT
  else walk st.fs (if isRooted p then [] else st.cwd) (walkElements p)

/-- The system call `lstat(2)`, reduced to the node it finds. -/
def Lstat (st : State) (p : String) : Except Errno Node :=
  match namei st p with
  | Except.error e => Except.error e
  | Except.ok a =>
    match nodeAt st.fs a with
    | none => Except.error Errno.ENOENT
    | some n => Except.ok n

/-- Where a location ends up when the tree at `src` is moved to `dst`:
below `src` it follows the move, what else was below `dst` is replaced. -/
def reKey (src dst p : Path) : Option Path :=
  if src <+: p then some (dst ++ p.drop src.length)
  else if dst <+: p then none
  else some p

/-- The table after the tree at `src` has been moved to `dst`. -/
def moveTree (src dst : Path) (fs : FS) : FS :=
  fs.filterMap (fun e => (reKey src dst e.1).map (fun q => (q, e.2)))

/-- The working directory follows a moved tree. -/
def moveCwd (src dst cwd : Path) : Path :=
  if src <+: cwd then dst ++ cwd.drop src.length else cwd

/-- The refusals after a move: they stay with the directories and entries
they are about. -/
def moveRefusals (src dst : Path) (rows : Refusals) : Refusals :=
  rows.filterMap (fun e => (reKey src dst e.1).map (fun q => (q, e.2)))

/-- The state after a successful move. -/
def moved (st : State) (src dst : Path) : State :=
  { cwd := moveCwd src dst st.cwd, fs := moveTree src dst st.fs,
    denied := moveRefusals src dst st.denied,
    pinned := moveRefusals src dst st.pinned }

/-- The permission checks of `rename(2)`: the directory that loses the old
entry is asked first, then the directory that gets the new one. -/
def dirRefusal (st : State) (o n : Path) : Option Errno :=
  match refusalAt st.denied o.dropLast with
  | some e => some e
  | none => refusalAt st.denied n.dropLast

/-- The refusals of `rename(2)` that concern the two entries themselves: the
old entry is asked first, then the new one. -/
def entryRefusal (st : State) (o n : Path) : Option Errno :=
  match refusalAt st.pinned o with
  | some e => some e
  | none => refusalAt st.pinned n

/-- No table row lies strictly below `p`. -/
def isEmptyDir (fs : FS) (p : Path) : Bool :=
  fs.all (fun e => !(decide (p <+: e.1) && decide (e.1 ≠ p)))

/-- The last element of a path is `.` or `..`, or there is none. -/
def lastIsSpecial (p : String) : Bool :=
  match (walkElements p).getLast? with
  | none => true
  | some l => l == "." || l == ".."

/-- The system call `rename(2)`. Both paths are resolved, the source must
exist, neither may be an ancestor of the other, the process must be allowed
to change both parent directories, the kinds of source and target must fit,
neither entry may be pinned, and a target directory must be empty; then the
tree is moved. Every refusal leaves the state as it is. -/
def sysRename (st : State) (old new : String) : State × Option Errno :=
  match namei st old with
  | Except.error e => (st, some e)
  | Except.ok o =>
    match namei st new with
    | Except.error e => (st, some e)
    | Except.ok n =>
      if lastIsSpecial old || lastIsSpecial new then (st, some Errno.EBUSY)
      else
        match nodeAt st.fs o with
        | none => (st, some Errno.ENOENT)
        | some oldNode =>
          if o = n then (st, none)
          else if o <+: n then (st, some Errno.EINVAL)
          else if n <+: o then (st, some Errno.ENOTEMPTY)
          else
            match dirRefusal st o n with
            | some e => (st, some e)
            | none =>
              let commit : Bool → State × Option Errno := fun nonEmptyTarget =>
                match entryRefusal st o n with
                | some e => (st, some e)
                | none =>
                  if nonEmptyTarget then (st, some Errno.ENOTEMPTY)
                  else (moved st o n, none)
              match oldNode, nodeAt st.fs n with
              | _, none => commit false
              | Node.file _, some (Node.file _) => commit false
              | Node.file _, some Node.dir => (st, some Errno.EISDIR)
              | Node.dir, some (Node.file _) => (st, some Errno.ENOTDIR)
              | Node.dir, some Node.dir => commit (!isEmptyDir st.fs n)

/-- Go `*os.LinkError`. -/
structure LinkError where
  Op : String
  Old : String
  New : String
  Err : Errno
  deriving DecidableEq, Repr

/-- Go `os.SameFile` on the results of two `Lstat` calls: without links two
names are the same file exactly when they resolve to the same location. -/
def sameFile (st : State) (a b : String) : Bool :=
  match namei st a, namei st b with
  | Except.ok x, Except.ok y => decide (x = y)
  | _, _ => false

/-- Go `os.Rename` (Unix): when the new name is an existing directory the
call is refused before the system call is made; otherwise the result of
`rename(2)` is returned, an error wrapped in a `LinkError`. -/
def osRename (st : State) (oldname newname : String) : State × Option LinkError :=
  let sys : State × Option LinkError :=
    match sysRename st oldname newname with
    | (st2, none) => (st2, none)
    | (st2, some e) => (st2, some ⟨"rename", oldname, newname, e⟩)
  match Lstat st newname with
  | Except.ok Node.dir =>
    match Lstat st oldname with
    | Except.error e => (st, some ⟨"rename", oldname, newname, e⟩)
    | Except.ok _ =>
      if newname = oldname ∨ ¬ sameFile st newname oldname then
        (st, some ⟨"rename", oldname, newname, Errno.EEXIST⟩)
      else sys
  | _ => sys

/-- The function of the source: rename `root/in` to `root/locked`. The two
string constants it mentions are discarded. -/
def ingestAdmin (root : String) (st : State) : State × Option LinkError :=
  let src := Join [root, "in"]
  let dst := Join [root, "locked"]
  osRename st src dst

/-- The path of the state record that the source names and never uses. -/
def statePath (root : String) : String :=
  Join [root, "ingest.state.json"]

/-! ## Concrete states -/

/-- A fresh root `/srv` with two inbound files and no state record. -/
def freshState : State :=
  { cwd := [], denied := [], pinned := [],
    fs := [(["srv"], Node.dir), (["srv", "in"], Node.dir),
           (["srv", "in", "a.csv"], Node.file "1,2"),
           (["srv", "in", "b.csv"], Node.file "3,4")] }

/-- The fresh root `/srv` where the process has no write permission on
`/srv` itself (mode 0555, say). -/
def sealedState : State :=
  { cwd := [], denied := [(["srv"], Errno.EACCES)], pinned := [],
    fs := [(["srv"], Node.dir), (["srv", "in"], Node.dir),
           (["srv", "in", "a.csv"], Node.file "1,2"),
           (["srv", "in", "b.csv"], Node.file "3,4")] }

/-- The root `/srv` where `locked` is taken by a regular file. -/
def blockedState : State :=
  { cwd := [], denied := [], pinned := [],
    fs := [(["srv"], Node.dir), (["srv", "in"], Node.dir),
           (["srv", "in", "a.csv"], Node.file "1,2"),
           (["srv", "locked"], Node.file "not a directory")] }

/-- The root `/srv` with `in` present and a state record of the given
contents. -/
def recordedState (record : String) : State :=
  { cwd := [], denied := [], pinned := [],
    fs := [(["srv"], Node.dir), (["srv", "in"], Node.dir),
           (["srv", "in", "a.csv"], Node.file "1,2"),
           (["srv", "ingest.state.json"], Node.file record)] }

/-- A state record with status failed. -/
def failedRecord : String := "\x7b\"status\":\"failed\"\x7d"

/-- A state record with status locked. -/
def lockedRecord : String := "\x7b\"status\":\"locked\"\x7d"

/-- The root `/srv` after a completed run that also wrote its record. -/
def lockedState : State :=
  { cwd := ["srv", "locked"], denied := [], pinned := [],
    fs := [(["srv"], Node.dir), (["srv", "locked"], Node.dir),
           (["srv", "locked", "a.csv"], Node.file "1,2"),
           (["srv", "ingest.state.json"], Node.file lockedRecord)] }

/-! ## Auxiliary notions for the proofs -/

/-- A name that `Clean` and the kernel treat as an ordinary entry name. -/
def PlainName (c : String) : Prop :=
  c ≠ "" ∧ c ≠ "." ∧ c ≠ ".." ∧ '/' ∉ c.data

instance (c : String) : Decidable (PlainName c) := by
  unfold PlainName; infer_instance

/-- Shape of the output of `Clean`: some `..` elements (none when rooted)
followed by plain names. -/
def CleanShape (r : Bool) (out : List String) : Prop :=
  ∃ k names, out = List.replicate k ".." ++ names ∧ (∀ c ∈ names, PlainName c) ∧
    (r = true → k = 0)

/-- The directory a relative root is resolved from. -/
def startDir (st : State) (root : String) : Path :=
  if isRooted root then [] else st.cwd

/-- The absolute location of the root directory, when the root names an
existing directory. -/
def rootDir (st : State) (root : String) : Except Errno Path :=
  match walk st.fs (startDir st root) (cleanElements root) with
  | Except.error e => Except.error e
  | Except.ok b =>
    match nodeAt st.fs b with
    | none => Except.error Errno.ENOENT
    | some (Node.file _) => Except.error Errno.ENOTDIR
    | some Node.dir => Except.ok b

/-- The outcome of `ingestAdmin` read off the root directory, the two
entries `in` and `locked` in it and the refusals of the kernel. -/
def transition (root : String) (st : State) : State × Option LinkError :=
  let fail : Errno → State × Option LinkError := fun e =>
    (st, some ⟨"rename", Join [root, "in"], Join [root, "locked"], e⟩)
  match rootDir st root with
  | Except.error e => fail e
  | Except.ok b =>
    let commit : State × Option LinkError :=
      match entryRefusal st (b ++ ["in"]) (b ++ ["locked"]) with
      | some e => fail e
      | none => (moved st (b ++ ["in"]) (b ++ ["locked"]), none)
    match nodeAt st.fs (b ++ ["in"]), nodeAt st.fs (b ++ ["locked"]) with
    | none, _ => fail Errno.ENOENT
    | some _, some Node.dir => fail Errno.EEXIST
    | some ni, target =>
      match dirRefusal st (b ++ ["in"]) (b ++ ["locked"]) with
      | some e => fail e
      | none =>
        match ni, target with
        | Node.dir, some (Node.file _) => fail Errno.ENOTDIR
        | _, _ => commit

/-- The kernel refuses nothing about the rename of `root/in` to
`root/locked`: the process may change the root directory and neither entry
is pinned. -/
def Unrefused (st : State) (root : String) : Prop :=
  ∀ o n, namei st (Join [root, "in"]) = Except.ok o →
    namei st (Join [root, "locked"]) = Except.ok n →
    dirRefusal st o n = none ∧ entryRefusal st o n = none

/-- The state record and the disk agree: a record that says locked (as
judged by `recordsLocked`, the record format not being part of the source)
comes with an existing `root/locked`. -/
def Agrees (recordsLocked : String → Bool) (root : String) (st : State) : Prop :=
  ∀ c, Lstat st (statePath root) = Except.ok (Node.file c) → recordsLocked c = true →
    ∃ n, Lstat st (Join [root, "locked"]) = Except.ok n

/-! ## Path syntax lemmas -/

theorem splitSlash_ne_nil (l : List Char) : splitSlash l ≠ [] := by
  cases l with
  | nil => simp [splitSlash]
  | cons c cs =>
    simp only [splitSlash]
    split
    · simp
    · split <;> simp

theorem splitSlash_noSlash (w : List Char) (h : '/' ∉ w) : splitSlash w = [w] := by
  induction w with
  | nil => rfl
  | cons c cs ih =>
    simp only [List.mem_cons, not_or] at h
    have hc : c ≠ '/' := fun e => h.1 e.symm
    simp [splitSlash, hc, ih h.2]

theorem splitSlash_append (a b : List Char) :
    splitSlash (a ++ '/' :: b) = splitSlash a ++ splitSlash b := by
  induction a with
  | nil => simp [splitSlash]
  | cons c cs ih =>
    by_cases hc : c = '/'
    · simp [splitSlash, hc, ih]
    · simp only [List.cons_append, splitSlash, hc, if_false]
      change (match splitSlash (cs ++ '/' :: b) with
        | [] => [[c]]
        | w :: ws => (c :: w) :: ws) = _
      rw [ih]
      cases h : splitSlash cs with
      | nil => exact absurd h (splitSlash_ne_nil cs)
      | cons w ws => simp

theorem splitSlash_mem_noSlash (l : List Char) : ∀ w ∈ splitSlash l, '/' ∉ w := by
  induction l with
  | nil => simp [splitSlash]
  | cons c cs ih =>
    by_cases hc : c = '/'
    · simp only [splitSlash, hc, if_true, List.mem_cons]
      rintro w (rfl | hw)
      · simp
      · exact ih w hw
    · simp only [splitSlash, hc, if_false]
      cases h : splitSlash cs with
      | nil => exact absurd h (splitSlash_ne_nil cs)
      | cons v vs =>
        rw [h] at ih
        simp only [List.mem_cons]
        rintro w (rfl | hw)
        · have := ih v (by simp)
          simp only [List.mem_cons, not_or]
          exact ⟨fun e => hc e.symm, this⟩
        · exact ih w (by simp [hw])

theorem splitSlash_joinSlash (L : List (List Char)) (hne : L ≠ [])
    (h : ∀ w ∈ L, '/' ∉ w) : splitSlash (joinSlash L) = L := by
  induction L with
  | nil => exact absurd rfl hne
  | cons w ws ih =>
    cases ws with
    | nil => simpa [joinSlash] using splitSlash_noSlash w (h w (by simp))
    | cons w2 ws2 =>
      simp only [joinSlash]
      rw [splitSlash_append, splitSlash_noSlash w (h w (by simp)),
        ih (by simp) (fun v hv => h v (by simp [hv]))]
      rfl

theorem mk_data (s : String) : String.mk s.data = s := by
  cases s; rfl

theorem map_mk_data (L : List String) : (L.map String.data).map String.mk = L := by
  induction L with
  | nil => rfl
  | cons a as ih => simp [mk_data, ih]

theorem elements_mem_noSlash (s : String) : ∀ c ∈ elements s, '/' ∉ c.data := by
  intro c hc
  simp only [elements, List.mem_map] at hc
  obtain ⟨w, hw, rfl⟩ := hc
  exact splitSlash_mem_noSlash _ w hw

theorem elements_noSlash (x : String) (hx : '/' ∉ x.data) : elements x = [x] := by
  simp [elements, splitSlash_noSlash x.data hx, mk_data]

theorem elements_join (root x : String) (hx : '/' ∉ x.data) :
    elements (stringsJoin [root, x]) = elements root ++ [x] := by
  simp [elements, stringsJoin, joinSlash, splitSlash_append, splitSlash_noSlash x.data hx,
    mk_data]

theorem isRooted_join (root x : String) (h : root ≠ "") :
    isRooted (stringsJoin [root, x]) = isRooted root := by
  obtain ⟨d⟩ := root
  cases d with
  | nil => exact absurd rfl h
  | cons c cs => simp [isRooted, stringsJoin, joinSlash]

theorem isRooted_noSlash (x : String) (hx : '/' ∉ x.data) : isRooted x = false := by
  obtain ⟨d⟩ := x
  cases d with
  | nil => rfl
  | cons c cs =>
    simp only [List.mem_cons, not_or] at hx
    have hc : c ≠ '/' := fun e => hx.1 e.symm
    simp [isRooted, hc]

theorem cleanStep_plain (r : Bool) (out : List String) (x : String) (hx : PlainName x) :
    cleanStep r out x = out ++ [x] := by
  obtain ⟨h1, h2, h3, _⟩ := hx
  simp [cleanStep, h1, h2, h3]

theorem cleanElements_join (root x : String) (hroot : root ≠ "") (hx : PlainName x) :
    cleanElements (stringsJoin [root, x]) = cleanElements root ++ [x] := by
  unfold cleanElements
  rw [elements_join root x hx.2.2.2, isRooted_join root x hroot, List.foldl_append]
  simp [cleanStep_plain _ _ x hx]

/-- The path `Join` builds for a root and a plain entry name: the cleaned
elements of the root followed by the name. -/
theorem Join_plain (root x : String) (hx : PlainName x) :
    Join [root, x] = render (isRooted root) (cleanElements root ++ [x]) := by
  have hx1 : x ≠ "" := hx.1
  by_cases hroot : root = ""
  · subst hroot
    have hj : stringsJoin [x] = x := by simp [stringsJoin, joinSlash, mk_data]
    have he : cleanElements x = [x] := by
      simp [cleanElements, elements_noSlash x hx.2.2.2, cleanStep_plain _ _ x hx]
    have hr : isRooted x = false := isRooted_noSlash x hx.2.2.2
    have h0 : cleanElements "" = [] := by decide
    have hr0 : isRooted "" = false := rfl
    simp [Join, hx1, hj, Clean, he, hr, h0, hr0]
  · have hne : stringsJoin [root, x] ≠ "" := by
      intro h
      have := congrArg String.data h
      simp [stringsJoin, joinSlash] at this
    simp only [Join, hroot, if_false, Clean, hne, isRooted_join root x hroot,
      cleanElements_join root x hroot hx]

theorem replicate_succ_snoc (k : Nat) (a : String) :
    List.replicate (k + 1) a = List.replicate k a ++ [a] := by
  induction k with
  | zero => rfl
  | succ n ih =>
    calc List.replicate (n + 1 + 1) a = a :: List.replicate (n + 1) a := rfl
      _ = a :: (List.replicate n a ++ [a]) := by rw [ih]
      _ = List.replicate (n + 1) a ++ [a] := rfl

theorem cleanStep_shape (r : Bool) (out : List String) (c : String) (hc : '/' ∉ c.data)
    (h : CleanShape r out) : CleanShape r (cleanStep r out c) := by
  obtain ⟨k, names, rfl, hn, hr⟩ := h
  unfold cleanStep
  by_cases h1 : c = "" ∨ c = "."
  · rw [if_pos h1]; exact ⟨k, names, rfl, hn, hr⟩
  · rw [if_neg h1]
    by_cases h2 : c = ".."
    · rw [if_pos h2]
      rcases List.eq_nil_or_concat names with hnil | ⟨ns, n, hcons⟩
      · subst hnil
        cases k with
        | zero =>
          simp only [List.replicate_zero, List.append_nil, List.getLast?_nil, List.nil_append]
          cases r with
          | true => exact ⟨0, [], rfl, by simp, fun _ => rfl⟩
          | false => exact ⟨1, [], rfl, by simp, by simp⟩
        | succ j =>
          have hr' : r = false := by
            cases r with
            | true => exact absurd (hr rfl) (by simp)
            | false => rfl
          have hl : (List.replicate (j + 1) ".." ++ ([] : List String)).getLast? = some ".." := by
            rw [List.append_nil, replicate_succ_snoc]; simp
          rw [hl]
          simp only [if_true, List.append_nil]
          refine ⟨j + 2, [], ?_, by simp, by simp [hr']⟩
          rw [replicate_succ_snoc (j + 1)]; simp
      · rw [List.concat_eq_append] at hcons
        subst hcons
        have hl : (List.replicate k ".." ++ (ns ++ [n])).getLast? = some n := by
          rw [← List.append_assoc]; simp
        have hnp : PlainName n := hn n (by simp)
        rw [hl]
        simp only [hnp.2.2.1, if_false]
        refine ⟨k, ns, ?_, fun c hc => hn c (by simp [hc]), hr⟩
        rw [← List.append_assoc, List.dropLast_concat]
    · rw [if_neg h2]
      refine ⟨k, names ++ [c], by simp, ?_, hr⟩
      intro d hd
      simp only [List.mem_append, List.mem_singleton] at hd
      rcases hd with hd | rfl
      · exact hn d hd
      · exact ⟨fun e => h1 (Or.inl e), fun e => h1 (Or.inr e), h2, hc⟩

theorem foldl_cleanStep_shape (r : Bool) (l : List String) :
    ∀ out, (∀ c ∈ l, '/' ∉ c.data) → CleanShape r out →
      CleanShape r (l.foldl (cleanStep r) out) := by
  induction l with
  | nil => intro out _ h; exact h
  | cons c cs ih =>
    intro out hl h
    exact ih _ (fun d hd => hl d (by simp [hd]))
      (cleanStep_shape r out c (hl c (by simp)) h)

theorem cleanElements_shape (root : String) :
    CleanShape (isRooted root) (cleanElements root) :=
  foldl_cleanStep_shape _ _ [] (elements_mem_noSlash root) ⟨0, [], rfl, by simp, fun _ => rfl⟩

theorem joinSlash_head (c : Char) (cs : List Char) (ws : List (List Char)) :
    ∃ t, joinSlash ((c :: cs) :: ws) = c :: t := by
  cases ws with
  | nil => exact ⟨cs, rfl⟩
  | cons w2 ws2 => exact ⟨cs ++ '/' :: joinSlash (w2 :: ws2), rfl⟩

theorem render_facts (r : Bool) (L : List String) (hne : L ≠ [])
    (h : ∀ c ∈ L, c ≠ "" ∧ '/' ∉ c.data) :
    render r L ≠ "" ∧ isRooted (render r L) = r ∧ walkElements (render r L) = L := by
  have hs : splitSlash (joinSlash (L.map String.data)) = L.map String.data :=
    splitSlash_joinSlash _ (by simpa using hne) (by
      intro w hw
      simp only [List.mem_map] at hw
      obtain ⟨c, hc, rfl⟩ := hw
      exact (h c hc).2)
  have hfilter : L.filter (fun c => decide (c ≠ "")) = L := by
    rw [List.filter_eq_self]
    intro c hc
    simpa using (h c hc).1
  cases L with
  | nil => exact absurd rfl hne
  | cons c cs =>
    cases r with
    | true =>
      have hd : (render true (c :: cs)).data = '/' :: joinSlash ((c :: cs).map String.data) := by
        simp [render, stringsJoin]
      refine ⟨?_, ?_, ?_⟩
      · intro e
        rw [e] at hd
        simp at hd
      · simp [isRooted, hd]
      · have he : elements (render true (c :: cs)) = "" :: (c :: cs) := by
          unfold elements
          rw [hd]
          have h0 : splitSlash ('/' :: joinSlash ((c :: cs).map String.data)) =
              [] :: splitSlash (joinSlash ((c :: cs).map String.data)) := by
            simp [splitSlash]
          rw [h0, hs, List.map_cons, map_mk_data]
        unfold walkElements
        rw [he, List.filter_cons]
        simp only [ne_eq, not_true_eq_false, decide_False, Bool.false_eq_true, if_false]
        exact hfilter
    | false =>
      have hd : (render false (c :: cs)).data = joinSlash ((c :: cs).map String.data) := by
        simp [render, stringsJoin]
      have hc := h c (by simp)
      obtain ⟨d⟩ := c
      cases d with
      | nil => exact absurd rfl hc.1
      | cons a as =>
        obtain ⟨t, ht⟩ := joinSlash_head a as (cs.map String.data)
        have ha : a ≠ '/' := by
          intro e
          exact hc.2 (by simp [e])
        have hd2 : (render false (⟨a :: as⟩ :: cs)).data = a :: t := by
          rw [hd]; simpa using ht
        refine ⟨?_, ?_, ?_⟩
        · intro e
          rw [e] at hd2
          simp at hd2
        · simp [isRooted, hd2, ha]
        · have he : elements (render false (⟨a :: as⟩ :: cs)) = ⟨a :: as⟩ :: cs := by
            unfold elements
            rw [hd, hs, map_mk_data]
          unfold walkElements
          rw [he]
          exact hfilter

theorem shape_elements_ok (r : Bool) (K : List String) (x : String) (hK : CleanShape r K)
    (hx : PlainName x) : ∀ c ∈ K ++ [x], c ≠ "" ∧ '/' ∉ c.data := by
  obtain ⟨k, names, rfl, hn, _⟩ := hK
  intro c hc
  simp only [List.mem_append, List.mem_singleton, List.mem_replicate] at hc
  rcases hc with (⟨_, rfl⟩ | hc) | rfl
  · decide
  · exact ⟨(hn c hc).1, (hn c hc).2.2.2⟩
  · exact ⟨hx.1, hx.2.2.2⟩

theorem Join_facts (root x : String) (hx : PlainName x) :
    Join [root, x] ≠ "" ∧ isRooted (Join [root, x]) = isRooted root ∧
      walkElements (Join [root, x]) = cleanElements root ++ [x] := by
  rw [Join_plain root x hx]
  exact render_facts _ _ (by simp) (shape_elements_ok _ _ x (cleanElements_shape root) hx)

theorem walk_append (fs : FS) (P Q : List String) :
    ∀ cur, walk fs cur (P ++ Q) =
      match walk fs cur P with
      | Except.error e => Except.error e
      | Except.ok b => walk fs b Q := by
  induction P with
  | nil => intro cur; rfl
  | cons c cs ih =>
    intro cur
    simp only [List.cons_append, walk]
    cases nodeAt fs cur with
    | none => rfl
    | some n =>
      cases n with
      | file _ => rfl
      | dir => exact ih _

theorem step_plain (cur : Path) (x : String) (hx : PlainName x) : step cur x = cur ++ [x] := by
  simp [step, hx.2.1, hx.2.2.1]

/-- Resolution of `Join [root, x]` for a plain name `x`: the root directory
followed by `x`. -/
theorem namei_Join (st : State) (root x : String) (hx : PlainName x) :
    namei st (Join [root, x]) =
      match rootDir st root with
      | Except.error e => Except.error e
      | Except.ok b => Except.ok (b ++ [x]) := by
  obtain ⟨h1, h2, h3⟩ := Join_facts root x hx
  unfold namei rootDir startDir
  rw [if_neg h1, h2, h3, walk_append]
  cases walk st.fs (if isRooted root = true then [] else st.cwd) (cleanElements root) with
  | error e => rfl
  | ok b =>
    simp only [walk]
    cases nodeAt st.fs b with
    | none => rfl
    | some n =>
      cases n with
      | file _ => rfl
      | dir => simp [step_plain b x hx]

theorem lastIsSpecial_Join (root x : String) (hx : PlainName x) :
    lastIsSpecial (Join [root, x]) = false := by
  unfold lastIsSpecial
  rw [(Join_facts root x hx).2.2]
  simp [hx.2.1, hx.2.2.1]

theorem plain_in : PlainName "in" := by decide
theorem plain_locked : PlainName "locked" := by decide
theorem plain_state : PlainName "ingest.state.json" := by decide

theorem Join_in_ne_locked (root : String) : Join [root, "in"] ≠ Join [root, "locked"] := by
  intro h
  have h1 := (Join_facts root "in" plain_in).2.2
  have h2 := (Join_facts root "locked" plain_locked).2.2
  rw [h, h2] at h1
  have := List.append_cancel_left h1
  exact absurd this (by decide)

theorem snoc_ne (b : Path) (x y : String) (h : x ≠ y) : b ++ [x] ≠ b ++ [y] := by
  intro e
  exact h (by simpa using List.append_cancel_left e)

theorem snoc_incomparable (b : Path) (x y : String) (h : x ≠ y) : ¬ (b ++ [x]) <+: (b ++ [y]) := by
  intro hp
  have hl : (b ++ [x]).length = (b ++ [y]).length := by simp
  exact snoc_ne b x y h (List.IsPrefix.eq_of_length hp hl)

theorem in_ne_locked : ("in" : String) ≠ "locked" := by decide

/-- The source function computes `transition`. -/
theorem ingestAdmin_eq (root : String) (st : State) :
    ingestAdmin root st = transition root st := by
  have hne := Join_in_ne_locked root
  have hni := namei_Join st root "in" plain_in
  have hnl := namei_Join st root "locked" plain_locked
  have hsi := lastIsSpecial_Join root "in" plain_in
  have hsl := lastIsSpecial_Join root "locked" plain_locked
  unfold ingestAdmin transition osRename sysRename Lstat sameFile
  simp only [hni, hnl, hsi, hsl]
  cases hb : rootDir st root with
  | error e => simp
  | ok b =>
    have h1 : b ++ ["in"] ≠ b ++ ["locked"] := snoc_ne b _ _ in_ne_locked
    have h2 : ¬ (b ++ ["in"]) <+: (b ++ ["locked"]) := snoc_incomparable b _ _ in_ne_locked
    have h3 : ¬ (b ++ ["locked"]) <+: (b ++ ["in"]) := snoc_incomparable b _ _ in_ne_locked.symm
    have h4 : b ++ ["locked"] ≠ b ++ ["in"] := fun e => h1 e.symm
    cases hi : nodeAt st.fs (b ++ ["in"]) with
    | none =>
      cases hl : nodeAt st.fs (b ++ ["locked"]) with
      | none => simp [hi, hl]
      | some nl => cases nl <;> simp [hi, hl]
    | some ni =>
      cases hd : dirRefusal st (b ++ ["in"]) (b ++ ["locked"]) <;>
      cases he : entryRefusal st (b ++ ["in"]) (b ++ ["locked"]) <;>
      cases hl : nodeAt st.fs (b ++ ["locked"]) with
      | none => cases ni <;> simp [hi, hl, hd, he, h1, h2, h3]
      | some nl =>
        cases nl <;> cases ni <;> simp [hi, hl, hd, he, h1, h2, h3, h4, hne.symm]

/-! ## The table after a move -/

theorem find_moveTree_of (src dst : Path) (q p0 : Path)
    (h : ∀ p, reKey src dst p = some q ↔ p = p0) :
    ∀ fs : FS, find (moveTree src dst fs) q = find fs p0 := by
  intro fs
  induction fs with
  | nil => rfl
  | cons e rest ih =>
    obtain ⟨p, n⟩ := e
    unfold moveTree at ih ⊢
    rw [List.filterMap_cons]
    cases hk : reKey src dst p with
    | none =>
      have hne : p ≠ p0 := by
        intro e
        have := (h p).2 e
        rw [hk] at this
        exact absurd this (by simp)
      simp only [Option.map_none', find, hne, if_false]
      exact ih
    | some k =>
      simp only [Option.map_some', find]
      by_cases hkq : k = q
      · have : p = p0 := (h p).1 (by rw [hk, hkq])
        simp [hkq, this]
      · have hne : p ≠ p0 := by
          intro e
          have := (h p).2 e
          rw [hk] at this
          exact hkq (by simpa using this)
        simp only [hkq, hne, if_false]
        exact ih

theorem find_moveTree_none (src dst : Path) (q : Path)
    (h : ∀ p, reKey src dst p ≠ some q) :
    ∀ fs : FS, find (moveTree src dst fs) q = none := by
  intro fs
  induction fs with
  | nil => rfl
  | cons e rest ih =>
    obtain ⟨p, n⟩ := e
    unfold moveTree at ih ⊢
    rw [List.filterMap_cons]
    cases hk : reKey src dst p with
    | none => simpa using ih
    | some k =>
      have hkq : k ≠ q := by
        intro e
        exact h p (by rw [hk, e])
      simp only [Option.map_some', find, hkq, if_false]
      exact ih

theorem prefix_append_drop (src p : Path) (h : src <+: p) : src ++ p.drop src.length = p := by
  obtain ⟨t, rfl⟩ := h
  simp

/-- What was below the source is found below the destination. -/
theorem nodeAt_moveTree_dst (src dst : Path) (fs : FS) (r : Path)
    (hs : src ≠ []) (hd : dst ≠ []) :
    nodeAt (moveTree src dst fs) (dst ++ r) = nodeAt fs (src ++ r) := by
  have e1 : dst ++ r ≠ [] := by simp [hd]
  have e2 : src ++ r ≠ [] := by simp [hs]
  unfold nodeAt
  rw [if_neg e1, if_neg e2]
  apply find_moveTree_of
  intro p
  unfold reKey
  constructor
  · intro h
    by_cases hp : src <+: p
    · rw [if_pos hp] at h
      have := List.append_cancel_left (Option.some.inj h)
      rw [← prefix_append_drop src p hp, this]
    · rw [if_neg hp] at h
      by_cases hq : dst <+: p
      · rw [if_pos hq] at h; exact absurd h (by simp)
      · rw [if_neg hq] at h
        exact absurd (Option.some.inj h ▸ List.prefix_append dst r) hq
  · rintro rfl
    have hp : src <+: src ++ r := List.prefix_append src r
    rw [if_pos hp]
    simp

/-- Nothing is left below the source. -/
theorem nodeAt_moveTree_src (src dst : Path) (fs : FS) (q : Path)
    (hs : src ≠ []) (h1 : ¬ src <+: dst) (h2 : ¬ dst <+: src) (hq : src <+: q) :
    nodeAt (moveTree src dst fs) q = none := by
  have e1 : q ≠ [] := by
    rintro rfl
    exact hs (List.prefix_nil.1 hq)
  unfold nodeAt
  rw [if_neg e1]
  apply find_moveTree_none
  intro p h
  unfold reKey at h
  by_cases hp : src <+: p
  · rw [if_pos hp] at h
    have hd : dst <+: q := Option.some.inj h ▸ List.prefix_append dst _
    rcases List.prefix_or_prefix_of_prefix hq hd with h' | h'
    · exact h1 h'
    · exact h2 h'
  · rw [if_neg hp] at h
    by_cases hd : dst <+: p
    · rw [if_pos hd] at h; exact absurd h (by simp)
    · rw [if_neg hd] at h
      exact hp (Option.some.inj h ▸ hq)

/-- Locations outside both trees keep their node. -/
theorem nodeAt_moveTree_frame (src dst : Path) (fs : FS) (q : Path)
    (h1 : ¬ src <+: q) (h2 : ¬ dst <+: q) :
    nodeAt (moveTree src dst fs) q = nodeAt fs q := by
  unfold nodeAt
  by_cases e : q = []
  · simp [e]
  · rw [if_neg e, if_neg e]
    apply find_moveTree_of
    intro p
    unfold reKey
    constructor
    · intro h
      by_cases hp : src <+: p
      · rw [if_pos hp] at h
        exact absurd (Option.some.inj h ▸ List.prefix_append dst _) h2
      · rw [if_neg hp] at h
        by_cases hd : dst <+: p
        · rw [if_pos hd] at h; exact absurd h (by simp)
        · rw [if_neg hd] at h; exact Option.some.inj h
    · rintro rfl
      rw [if_neg h1, if_neg h2]

/-! ## Resolving the root again after a move -/

theorem walk_names_ok (fs : FS) (names : List String) (hn : ∀ c ∈ names, PlainName c) :
    ∀ a r, walk fs a names = Except.ok r → r = a ++ names := by
  induction names with
  | nil =>
    intro a r h
    simp only [walk] at h
    simpa using (Except.ok.inj h).symm
  | cons c cs ih =>
    intro a r h
    simp only [walk] at h
    cases hna : nodeAt fs a with
    | none => rw [hna] at h; exact absurd h (by simp)
    | some n =>
      cases n with
      | file _ => rw [hna] at h; exact absurd h (by simp)
      | dir =>
        rw [hna] at h
        simp only [step_plain a c (hn c (by simp))] at h
        have := ih (fun d hd => hn d (by simp [hd])) _ _ h
        simpa using this

theorem walk_names_frame (fs fs2 : FS) (names : List String)
    (hn : ∀ c ∈ names, PlainName c) :
    ∀ a, (∀ v, v <+: a ++ names → v.length < (a ++ names).length →
        nodeAt fs2 v = nodeAt fs v) →
      walk fs2 a names = walk fs a names := by
  induction names with
  | nil => intro a _; rfl
  | cons c cs ih =>
    intro a h
    have ha : nodeAt fs2 a = nodeAt fs a := h a (List.prefix_append a _) (by simp)
    simp only [walk, ha, step_plain a c (hn c (by simp))]
    have := ih (fun d hd => hn d (by simp [hd])) (a ++ [c]) (by
      intro v hv hl
      exact h v (by simpa using hv) (by simpa using hl))
    rw [this]

theorem prefix_dropLast (p q : Path) (h : p <+: q) (hne : p ≠ q) : p <+: q.dropLast := by
  obtain ⟨t, rfl⟩ := h
  rcases List.eq_nil_or_concat t with rfl | ⟨u, x, rfl⟩
  · exact absurd (by simp) hne
  · rw [List.concat_eq_append, ← List.append_assoc, List.dropLast_concat]
    exact List.prefix_append p u

theorem not_prefix_of_length (p q : Path) (h : q.length < p.length) : ¬ p <+: q := by
  intro hp
  have := List.IsPrefix.length_le hp
  omega

/-- A walk that ends at `b` never starts below `b ++ [l]` unless that
location is a directory. -/
theorem up_not_below (fs : FS) (b : Path) (l : String) (names : List String)
    (hn : ∀ c ∈ names, PlainName c) (hdst : nodeAt fs (b ++ [l]) ≠ some Node.dir) :
    ∀ k cur, walk fs cur (List.replicate k ".." ++ names) = Except.ok b →
      ¬ (b ++ [l]) <+: cur := by
  intro k
  induction k with
  | zero =>
    intro cur h hp
    simp only [List.replicate_zero, List.nil_append] at h
    have hb := walk_names_ok fs names hn cur b h
    have := List.IsPrefix.length_le hp
    rw [hb] at this
    simp at this
  | succ j ih =>
    intro cur h hp
    simp only [List.replicate_succ, List.cons_append, walk] at h
    cases hc : nodeAt fs cur with
    | none => rw [hc] at h; exact absurd h (by simp)
    | some n =>
      cases n with
      | file _ => rw [hc] at h; exact absurd h (by simp)
      | dir =>
        rw [hc] at h
        have hs : step cur ".." = cur.dropLast := by simp [step]
        rw [hs] at h
        by_cases he : b ++ [l] = cur
        · rw [he] at hdst; exact hdst hc
        · exact ih _ h (prefix_dropLast _ _ hp he)

theorem moveCwd_of_not (src dst cur : Path) (h : ¬ src <+: cur) : moveCwd src dst cur = cur := by
  simp [moveCwd, h]

/-- After the tree at `b ++ [i]` has been moved to `b ++ [l]`, the walk that
led to `b` leads to `b` again from the moved starting point. -/
theorem up_post (fs : FS) (b : Path) (i l : String) (names : List String)
    (hn : ∀ c ∈ names, PlainName c) (hdst : nodeAt fs (b ++ [l]) ≠ some Node.dir) :
    ∀ k cur, walk fs cur (List.replicate k ".." ++ names) = Except.ok b →
      walk (moveTree (b ++ [i]) (b ++ [l]) fs) (moveCwd (b ++ [i]) (b ++ [l]) cur)
        (List.replicate k ".." ++ names) = Except.ok b := by
  have hsne : b ++ [i] ≠ [] := by simp
  have hdne : b ++ [l] ≠ [] := by simp
  intro k
  induction k with
  | zero =>
    intro cur h
    simp only [List.replicate_zero, List.nil_append] at h ⊢
    have hb := walk_names_ok fs names hn cur b h
    have hcur : ¬ (b ++ [i]) <+: cur := by
      apply not_prefix_of_length
      rw [hb]; simp
    rw [moveCwd_of_not _ _ _ hcur, walk_names_frame fs _ names hn cur, h]
    intro v hv hl
    rw [← hb] at hv hl
    apply nodeAt_moveTree_frame
    · apply not_prefix_of_length; simp; omega
    · apply not_prefix_of_length; simp; omega
  | succ j ih =>
    intro cur h
    have hnb := up_not_below fs b l names hn hdst (j + 1) cur h
    simp only [List.replicate_succ, List.cons_append, walk] at h ⊢
    have hs : ∀ c : Path, step c ".." = c.dropLast := by intro c; simp [step]
    cases hc : nodeAt fs cur with
    | none => rw [hc] at h; exact absurd h (by simp)
    | some n =>
      cases n with
      | file _ => rw [hc] at h; exact absurd h (by simp)
      | dir =>
        rw [hc, hs] at h
        have ih2 := ih _ h
        rw [hs]
        by_cases hp : (b ++ [i]) <+: cur
        · obtain ⟨r, rfl⟩ := hp
          have hm : moveCwd (b ++ [i]) (b ++ [l]) (b ++ [i] ++ r) = b ++ [l] ++ r := by
            simp [moveCwd]
          rw [hm, nodeAt_moveTree_dst _ _ fs r hsne hdne, hc]
          simp only
          rcases List.eq_nil_or_concat r with rfl | ⟨u, x, rfl⟩
          · have hbb : ¬ (b ++ [i]) <+: b := by
              apply not_prefix_of_length; simp
            simp only [List.append_nil, List.dropLast_concat] at ih2 ⊢
            rw [moveCwd_of_not _ _ _ hbb] at ih2
            exact ih2
          · rw [List.concat_eq_append, ← List.append_assoc, List.dropLast_concat] at ih2
            rw [List.concat_eq_append, ← List.append_assoc, List.dropLast_concat]
            have hm2 : moveCwd (b ++ [i]) (b ++ [l]) (b ++ [i] ++ u) = b ++ [l] ++ u := by
              simp [moveCwd]
            rw [hm2] at ih2
            exact ih2
        · rw [moveCwd_of_not _ _ _ hp, nodeAt_moveTree_frame _ _ fs cur hp hnb, hc]
          simp only
          have hp2 : ¬ (b ++ [i]) <+: cur.dropLast := fun h' =>
            hp (List.IsPrefix.trans h' (List.dropLast_prefix cur))
          rw [moveCwd_of_not _ _ _ hp2] at ih2
          exact ih2

theorem rootDir_ok (st : State) (root : String) (b : Path)
    (h : rootDir st root = Except.ok b) :
    walk st.fs (startDir st root) (cleanElements root) = Except.ok b ∧
      nodeAt st.fs b = some Node.dir := by
  unfold rootDir at h
  cases hw : walk st.fs (startDir st root) (cleanElements root) with
  | error e => rw [hw] at h; exact absurd h (by simp)
  | ok c =>
    rw [hw] at h
    dsimp only at h
    cases hn : nodeAt st.fs c with
    | none => rw [hn] at h; exact absurd h (by simp)
    | some n =>
      cases n with
      | file _ => rw [hn] at h; exact absurd h (by simp)
      | dir =>
        rw [hn] at h
        have hcb : c = b := by simpa using h
        subst hcb
        exact ⟨by trivial, hn⟩

theorem rootDir_of (st : State) (root : String) (b : Path)
    (hw : walk st.fs (startDir st root) (cleanElements root) = Except.ok b)
    (hn : nodeAt st.fs b = some Node.dir) : rootDir st root = Except.ok b := by
  unfold rootDir
  rw [hw]
  simp only [hn]

/-- The root names the same directory after `b ++ [i]` has been moved to
`b ++ [l]`, also when the working directory was inside the moved tree. -/
theorem rootDir_moved (st : State) (root : String) (b : Path) (i l : String)
    (h : rootDir st root = Except.ok b)
    (hdst : nodeAt st.fs (b ++ [l]) ≠ some Node.dir) :
    rootDir (moved st (b ++ [i]) (b ++ [l])) root = Except.ok b := by
  obtain ⟨hw, hn⟩ := rootDir_ok st root b h
  obtain ⟨k, names, hshape, hplain, hk⟩ := cleanElements_shape root
  have hstart : startDir (moved st (b ++ [i]) (b ++ [l])) root =
      moveCwd (b ++ [i]) (b ++ [l]) (startDir st root) := by
    unfold startDir moved
    by_cases hr : isRooted root = true
    · simp [hr, moveCwd]
    · simp [hr]
  apply rootDir_of
  · rw [hstart, hshape]
    rw [hshape] at hw
    exact up_post st.fs b i l names hplain hdst k _ hw
  · show nodeAt (moveTree (b ++ [i]) (b ++ [l]) st.fs) b = some Node.dir
    rw [nodeAt_moveTree_frame _ _ _ b (not_prefix_of_length _ _ (by simp))
      (not_prefix_of_length _ _ (by simp)), hn]

theorem Lstat_Join (st : State) (root x : String) (hx : PlainName x) :
    Lstat st (Join [root, x]) =
      match rootDir st root with
      | Except.error e => Except.error e
      | Except.ok b =>
        match nodeAt st.fs (b ++ [x]) with
        | none => Except.error Errno.ENOENT
        | some n => Except.ok n := by
  unfold Lstat
  rw [namei_Join st root x hx]
  cases rootDir st root <;> rfl

/-- An entry of the root directory exists: the root resolves and the entry
is in the table. -/
theorem Lstat_Join_ok (st : State) (root x : String) (hx : PlainName x) (n : Node)
    (h : Lstat st (Join [root, x]) = Except.ok n) :
    ∃ b, rootDir st root = Except.ok b ∧ nodeAt st.fs (b ++ [x]) = some n := by
  rw [Lstat_Join st root x hx] at h
  cases hb : rootDir st root with
  | error e => rw [hb] at h; exact absurd h (by simp)
  | ok b =>
    rw [hb] at h
    dsimp only at h
    refine ⟨b, rfl, ?_⟩
    cases hn : nodeAt st.fs (b ++ [x]) with
    | none => rw [hn] at h; exact absurd h (by simp)
    | some m =>
      rw [hn] at h
      simp only at h
      rw [Except.ok.injEq] at h
      rw [h]

/-- Every call either fails and hands back the state it was given, or moves
`in` to `locked` inside the root directory; in the second case `in` was
there, `locked` was not a directory and the kernel refused nothing. -/
theorem transition_cases (root : String) (st : State) :
    (∃ e, transition root st = (st, some e)) ∨
      ∃ b n, rootDir st root = Except.ok b ∧ nodeAt st.fs (b ++ ["in"]) = some n ∧
        nodeAt st.fs (b ++ ["locked"]) ≠ some Node.dir ∧
        dirRefusal st (b ++ ["in"]) (b ++ ["locked"]) = none ∧
        entryRefusal st (b ++ ["in"]) (b ++ ["locked"]) = none ∧
        transition root st = (moved st (b ++ ["in"]) (b ++ ["locked"]), none) := by
  unfold transition
  cases hb : rootDir st root with
  | error e => exact Or.inl ⟨_, rfl⟩
  | ok b =>
    dsimp only
    cases hi : nodeAt st.fs (b ++ ["in"]) with
    | none => exact Or.inl ⟨_, rfl⟩
    | some ni =>
      cases hd : dirRefusal st (b ++ ["in"]) (b ++ ["locked"]) with
      | some e =>
        cases hl : nodeAt st.fs (b ++ ["locked"]) with
        | none => exact Or.inl ⟨_, rfl⟩
        | some nl => cases nl <;> exact Or.inl ⟨_, rfl⟩
      | none =>
        cases he : entryRefusal st (b ++ ["in"]) (b ++ ["locked"]) with
        | some e =>
          cases hl : nodeAt st.fs (b ++ ["locked"]) with
          | none => cases ni <;> exact Or.inl ⟨_, rfl⟩
          | some nl => cases nl <;> cases ni <;> exact Or.inl ⟨_, rfl⟩
        | none =>
          cases hl : nodeAt st.fs (b ++ ["locked"]) with
          | none =>
            refine Or.inr ⟨b, ni, rfl, hi, by rw [hl]; simp, hd, he, ?_⟩
            cases ni <;> rfl
          | some nl =>
            cases nl with
            | dir => exact Or.inl ⟨_, rfl⟩
            | file c =>
              cases ni with
              | dir => exact Or.inl ⟨_, rfl⟩
              | file d => exact Or.inr ⟨b, _, rfl, hi, by rw [hl]; simp, hd, he, rfl⟩

/-- A failed call hands back the state it was given. -/
theorem transition_error_state (root : String) (st : State)
    (h : (transition root st).2 ≠ none) : (transition root st).1 = st := by
  rcases transition_cases root st with ⟨e, he⟩ | ⟨b, n, _, _, _, _, _, hs⟩
  · rw [he]
  · rw [hs] at h; exact absurd rfl h

/-- The successful case: the entry `in` exists, `locked` is absent and the
kernel refuses nothing. -/
theorem transition_absent (root : String) (st : State) (b : Path) (n : Node)
    (hb : rootDir st root = Except.ok b)
    (hi : nodeAt st.fs (b ++ ["in"]) = some n)
    (hl : nodeAt st.fs (b ++ ["locked"]) = none)
    (hd : dirRefusal st (b ++ ["in"]) (b ++ ["locked"]) = none)
    (he : entryRefusal st (b ++ ["in"]) (b ++ ["locked"]) = none) :
    transition root st = (moved st (b ++ ["in"]) (b ++ ["locked"]), none) := by
  unfold transition
  rw [hb]
  simp only [hi, hl, hd, he]

/-- The entry `in` is missing: the call fails with `ENOENT`. -/
theorem transition_missing (root : String) (st : State) (b : Path)
    (hb : rootDir st root = Except.ok b)
    (hi : nodeAt st.fs (b ++ ["in"]) = none) :
    transition root st =
      (st, some ⟨"rename", Join [root, "in"], Join [root, "locked"], Errno.ENOENT⟩) := by
  unfold transition
  rw [hb]
  simp only [hi]

/-! ## Outcomes of the transition -/

theorem Lstat_Join_enoent (st : State) (root x : String) (hx : PlainName x) (b : Path)
    (hb : rootDir st root = Except.ok b)
    (h : Lstat st (Join [root, x]) = Except.error Errno.ENOENT) :
    nodeAt st.fs (b ++ [x]) = none := by
  rw [Lstat_Join st root x hx, hb] at h
  dsimp only at h
  cases hn : nodeAt st.fs (b ++ [x]) with
  | none => rfl
  | some m => rw [hn] at h; exact absurd h (by simp)

/-- A successful call is a move of `in` to `locked` inside the root
directory, and `locked` was not a directory before. -/
theorem transition_success (root : String) (st : State)
    (h : (transition root st).2 = none) :
    ∃ b n, rootDir st root = Except.ok b ∧ nodeAt st.fs (b ++ ["in"]) = some n ∧
      nodeAt st.fs (b ++ ["locked"]) ≠ some Node.dir ∧
      (transition root st).1 = moved st (b ++ ["in"]) (b ++ ["locked"]) := by
  rcases transition_cases root st with ⟨e, he⟩ | ⟨b, n, hb, hi, hl, _, _, hs⟩
  · rw [he] at h; exact absurd h (by simp)
  · exact ⟨b, n, hb, hi, hl, by rw [hs]⟩

/-- The three entries of the root directory after a successful move. -/
theorem moved_entries (st : State) (root : String) (b : Path) (n : Node)
    (hb : rootDir st root = Except.ok b)
    (hi : nodeAt st.fs (b ++ ["in"]) = some n)
    (hl : nodeAt st.fs (b ++ ["locked"]) ≠ some Node.dir) :
    Lstat (moved st (b ++ ["in"]) (b ++ ["locked"])) (Join [root, "in"]) =
        Except.error Errno.ENOENT ∧
      Lstat (moved st (b ++ ["in"]) (b ++ ["locked"])) (Join [root, "locked"]) =
        Except.ok n ∧
      Lstat (moved st (b ++ ["in"]) (b ++ ["locked"])) (Join [root, "ingest.state.json"]) =
        Lstat st (Join [root, "ingest.state.json"]) := by
  have hb2 := rootDir_moved st root b "in" "locked" hb hl
  have h1 : ¬ (b ++ ["in"]) <+: (b ++ ["locked"]) := snoc_incomparable b _ _ in_ne_locked
  have h2 : ¬ (b ++ ["locked"]) <+: (b ++ ["in"]) := snoc_incomparable b _ _ in_ne_locked.symm
  have h3 : ¬ (b ++ ["in"]) <+: (b ++ ["ingest.state.json"]) :=
    snoc_incomparable b _ _ (by decide)
  have h4 : ¬ (b ++ ["locked"]) <+: (b ++ ["ingest.state.json"]) :=
    snoc_incomparable b _ _ (by decide)
  have e1 : nodeAt (moved st (b ++ ["in"]) (b ++ ["locked"])).fs (b ++ ["in"]) = none :=
    nodeAt_moveTree_src _ _ st.fs _ (by simp) h1 h2 (List.prefix_refl _)
  have e2 : nodeAt (moved st (b ++ ["in"]) (b ++ ["locked"])).fs (b ++ ["locked"]) = some n := by
    have := nodeAt_moveTree_dst (b ++ ["in"]) (b ++ ["locked"]) st.fs [] (by simp) (by simp)
    simp only [List.append_nil] at this
    exact this.trans hi
  have e3 : nodeAt (moved st (b ++ ["in"]) (b ++ ["locked"])).fs (b ++ ["ingest.state.json"]) =
      nodeAt st.fs (b ++ ["ingest.state.json"]) :=
    nodeAt_moveTree_frame _ _ st.fs _ h3 h4
  refine ⟨?_, ?_, ?_⟩
  · rw [Lstat_Join _ root "in" plain_in, hb2]; simp only [e1]
  · rw [Lstat_Join _ root "locked" plain_locked, hb2]; simp only [e2]
  · rw [Lstat_Join _ root _ plain_state, Lstat_Join _ root _ plain_state, hb2, hb]
    simp only [e3]

/-- The state record is the same before and after a call. -/
theorem record_untouched (root : String) (st : State) :
    Lstat (ingestAdmin root st).1 (statePath root) = Lstat st (statePath root) := by
  rw [ingestAdmin_eq]
  cases h : (transition root st).2 with
  | some e =>
    rw [transition_error_state root st (by rw [h]; simp)]
  | none =>
    obtain ⟨b, n, hb, hi, hl, hs⟩ := transition_success root st h
    rw [hs]
    exact (moved_entries st root b n hb hi hl).2.2

/-- The call with `in` present, `locked` absent and nothing refused:
success, and the entries afterwards. -/
theorem rename_applies (root : String) (st : State) (n : Node)
    (hin : Lstat st (Join [root, "in"]) = Except.ok n)
    (hlocked : Lstat st (Join [root, "locked"]) = Except.error Errno.ENOENT)
    (hfree : Unrefused st root) :
    ∃ b, rootDir st root = Except.ok b ∧ nodeAt st.fs (b ++ ["in"]) = some n ∧
      nodeAt st.fs (b ++ ["locked"]) = none ∧
      ingestAdmin root st = (moved st (b ++ ["in"]) (b ++ ["locked"]), none) := by
  obtain ⟨b, hb, hi⟩ := Lstat_Join_ok st root "in" plain_in n hin
  have hl := Lstat_Join_enoent st root "locked" plain_locked b hb hlocked
  obtain ⟨hd, he⟩ := hfree (b ++ ["in"]) (b ++ ["locked"])
    (by rw [namei_Join st root "in" plain_in, hb])
    (by rw [namei_Join st root "locked" plain_locked, hb])
  exact ⟨b, hb, hi, hl, by
    rw [ingestAdmin_eq]; exact transition_absent root st b n hb hi hl hd he⟩

/-! ## The claims -/

/-- C1, as stated, fails: on the fresh root `/srv` (`in` a directory, no
`locked`, no state file) where the process may not write to `/srv`, the call
returns the error `EACCES` and moves nothing. -/
theorem sealed_root_refuses :
    Lstat sealedState (Join ["/srv", "in"]) = Except.ok Node.dir ∧
      Lstat sealedState (Join ["/srv", "locked"]) = Except.error Errno.ENOENT ∧
      Lstat sealedState (statePath "/srv") = Except.error Errno.ENOENT ∧
      ingestAdmin "/srv" sealedState =
        (sealedState, some ⟨"rename", "/srv/in", "/srv/locked", Errno.EACCES⟩) :=
  ⟨rfl, rfl, rfl, rfl⟩

/-- C1, amended. Fresh-root transition: when `root/in` is an existing
directory, `root/locked` does not exist and the kernel refuses nothing about
the rename (the process may change the root directory, neither entry is
pinned), `ingestAdmin root` returns nil; afterwards `root/in` no longer
exists and `root/locked` is a directory holding exactly what `root/in` held
(every location below it has the node the corresponding location below
`root/in` had). The absence of a state file is not needed. -/
theorem fresh_root_transition (root : String) (st : State)
    (hin : Lstat st (Join [root, "in"]) = Except.ok Node.dir)
    (hlocked : Lstat st (Join [root, "locked"]) = Except.error Errno.ENOENT)
    (hfree : Unrefused st root) :
    (ingestAdmin root st).2 = none ∧
      Lstat (ingestAdmin root st).1 (Join [root, "in"]) = Except.error Errno.ENOENT ∧
      Lstat (ingestAdmin root st).1 (Join [root, "locked"]) = Except.ok Node.dir ∧
      ∃ src dst, namei st (Join [root, "in"]) = Except.ok src ∧
        namei (ingestAdmin root st).1 (Join [root, "locked"]) = Except.ok dst ∧
        ∀ rel, nodeAt (ingestAdmin root st).1.fs (dst ++ rel) = nodeAt st.fs (src ++ rel) := by
  obtain ⟨b, hb, hi, hl, hres⟩ := rename_applies root st Node.dir hin hlocked hfree
  have hl2 : nodeAt st.fs (b ++ ["locked"]) ≠ some Node.dir := by rw [hl]; simp
  obtain ⟨e1, e2, _⟩ := moved_entries st root b Node.dir hb hi hl2
  rw [hres]
  refine ⟨rfl, e1, e2, b ++ ["in"], b ++ ["locked"], ?_, ?_, ?_⟩
  · rw [namei_Join st root "in" plain_in, hb]
  · rw [namei_Join _ root "locked" plain_locked, rootDir_moved st root b "in" "locked" hb hl2]
  · intro rel
    exact nodeAt_moveTree_dst _ _ st.fs rel (by simp) (by simp)

/-- C1 amended, at the fresh root `/srv`. -/
theorem fresh_root_transition_witness :
    Lstat freshState (Join ["/srv", "in"]) = Except.ok Node.dir ∧
      Lstat freshState (Join ["/srv", "locked"]) = Except.error Errno.ENOENT ∧
      Unrefused freshState "/srv" ∧
      (ingestAdmin "/srv" freshState).2 = none ∧
      Lstat (ingestAdmin "/srv" freshState).1 (Join ["/srv", "in"]) =
        Except.error Errno.ENOENT ∧
      Lstat (ingestAdmin "/srv" freshState).1 (Join ["/srv", "locked"]) =
        Except.ok Node.dir :=
  have hfree : Unrefused freshState "/srv" := fun _ _ _ _ => ⟨rfl, rfl⟩
  have h := fresh_root_transition "/srv" freshState rfl rfl hfree
  ⟨rfl, rfl, hfree, h.1, h.2.1, h.2.2.1⟩

/-- C2. Atomicity under failure: whenever `ingestAdmin root` returns a
non-nil error, the state after the call is the state before it; so `root/in`
has the same existence, entries and contents. -/
theorem error_leaves_state (root : String) (st : State)
    (h : (ingestAdmin root st).2 ≠ none) :
    (ingestAdmin root st).1 = st := by
  rw [ingestAdmin_eq] at h ⊢
  exact transition_error_state root st h

/-- C2 at a root whose `locked` is a regular file: the call fails with
`ENOTDIR` and nothing changes. -/
theorem error_leaves_state_witness :
    (ingestAdmin "/srv" blockedState).2 =
        some ⟨"rename", "/srv/in", "/srv/locked", Errno.ENOTDIR⟩ ∧
      (ingestAdmin "/srv" blockedState).1 = blockedState :=
  ⟨rfl, error_leaves_state "/srv" blockedState (by decide)⟩

/-- C3, as stated, fails: on the fresh root `/srv` the first call succeeds
and the second call in sequence returns an error. -/
theorem second_call_errors :
    Lstat freshState (Join ["/srv", "in"]) = Except.ok Node.dir ∧
      Lstat freshState (Join ["/srv", "locked"]) = Except.error Errno.ENOENT ∧
      (ingestAdmin "/srv" freshState).2 = none ∧
      (ingestAdmin "/srv" (ingestAdmin "/srv" freshState).1).2 =
        some ⟨"rename", "/srv/in", "/srv/locked", Errno.ENOENT⟩ :=
  ⟨rfl, rfl, rfl, rfl⟩

/-- C3, amended. After a first call that succeeded (so in particular on a
root whose `in` was a directory and whose `locked` was absent), a second
call in sequence attempts the rename again, returns the error `ENOENT` for
the missing `root/in`, and leaves the file system unchanged. -/
theorem second_call_enoent (root : String) (st : State)
    (hfirst : (ingestAdmin root st).2 = none) :
    ingestAdmin root (ingestAdmin root st).1 =
      ((ingestAdmin root st).1,
        some ⟨"rename", Join [root, "in"], Join [root, "locked"], Errno.ENOENT⟩) := by
  rw [ingestAdmin_eq root st] at hfirst ⊢
  obtain ⟨b, n, hb, _, hl, hs⟩ := transition_success root st hfirst
  have hb2 := rootDir_moved st root b "in" "locked" hb hl
  have e1 : nodeAt (moved st (b ++ ["in"]) (b ++ ["locked"])).fs (b ++ ["in"]) = none :=
    nodeAt_moveTree_src _ _ st.fs _ (by simp) (snoc_incomparable b _ _ in_ne_locked)
      (snoc_incomparable b _ _ in_ne_locked.symm) (List.prefix_refl _)
  rw [hs, ingestAdmin_eq]
  exact transition_missing root _ b hb2 e1

/-- C3 amended, at the fresh root `/srv`. -/
theorem second_call_enoent_witness :
    Lstat freshState (Join ["/srv", "in"]) = Except.ok Node.dir ∧
      Lstat freshState (Join ["/srv", "locked"]) = Except.error Errno.ENOENT ∧
      (ingestAdmin "/srv" freshState).2 = none ∧
      ingestAdmin "/srv" (ingestAdmin "/srv" freshState).1 =
        ((ingestAdmin "/srv" freshState).1,
          some ⟨"rename", Join ["/srv", "in"], Join ["/srv", "locked"], Errno.ENOENT⟩) :=
  ⟨rfl, rfl, rfl, second_call_enoent "/srv" freshState rfl⟩

/-- C5, as stated, fails: with a state record of status failed, `/srv/in`
present and `/srv/locked` absent, the call returns nil and renames. -/
theorem failed_record_still_renames :
    Lstat (recordedState failedRecord) (statePath "/srv") =
        Except.ok (Node.file failedRecord) ∧
      Lstat (recordedState failedRecord) (Join ["/srv", "in"]) = Except.ok Node.dir ∧
      Lstat (recordedState failedRecord) (Join ["/srv", "locked"]) =
        Except.error Errno.ENOENT ∧
      (ingestAdmin "/srv" (recordedState failedRecord)).2 = none ∧
      Lstat (ingestAdmin "/srv" (recordedState failedRecord)).1 (Join ["/srv", "in"]) =
        Except.error Errno.ENOENT ∧
      Lstat (ingestAdmin "/srv" (recordedState failedRecord)).1 (Join ["/srv", "locked"]) =
        Except.ok Node.dir :=
  ⟨rfl, rfl, rfl, rfl, rfl, rfl⟩

/-- C5, amended. With a state record of any contents (so also one of status
pending or failed), `ingestAdmin root` returns an error and changes nothing
only when the rename itself fails; when `root/in` is a directory,
`root/locked` is absent and the kernel refuses nothing about the rename, it
returns nil, renames `root/in` to `root/locked` and leaves the record as it
was. -/
theorem record_does_not_block (root : String) (st : State) (c : String)
    (hrec : Lstat st (statePath root) = Except.ok (Node.file c)) :
    ((ingestAdmin root st).2 ≠ none → (ingestAdmin root st).1 = st) ∧
      (Lstat st (Join [root, "in"]) = Except.ok Node.dir →
        Lstat st (Join [root, "locked"]) = Except.error Errno.ENOENT →
        Unrefused st root →
        (ingestAdmin root st).2 = none ∧
          Lstat (ingestAdmin root st).1 (Join [root, "in"]) = Except.error Errno.ENOENT ∧
          Lstat (ingestAdmin root st).1 (Join [root, "locked"]) = Except.ok Node.dir ∧
          Lstat (ingestAdmin root st).1 (statePath root) = Except.ok (Node.file c)) := by
  refine ⟨fun h => ?_, fun hin hlocked hfree => ?_⟩
  · rw [ingestAdmin_eq] at h ⊢
    exact transition_error_state root st h
  · have hstate := record_untouched root st
    obtain ⟨b, hb, hi, hl, hres⟩ := rename_applies root st Node.dir hin hlocked hfree
    have hl2 : nodeAt st.fs (b ++ ["locked"]) ≠ some Node.dir := by rw [hl]; simp
    obtain ⟨e1, e2, _⟩ := moved_entries st root b Node.dir hb hi hl2
    rw [hres] at hstate ⊢
    exact ⟨rfl, e1, e2, hstate.trans hrec⟩

/-- C5 amended, at the root `/srv` with a failed record. -/
theorem record_does_not_block_witness :
    Lstat (recordedState failedRecord) (statePath "/srv") =
        Except.ok (Node.file failedRecord) ∧
      (ingestAdmin "/srv" (recordedState failedRecord)).2 = none ∧
      Lstat (ingestAdmin "/srv" (recordedState failedRecord)).1 (statePath "/srv") =
        Except.ok (Node.file failedRecord) :=
  have h := (record_does_not_block "/srv" (recordedState failedRecord) failedRecord rfl).2
    rfl rfl (fun _ _ _ _ => ⟨rfl, rfl⟩)
  ⟨rfl, h.1, h.2.2.2⟩

/-- C6, as stated, fails: after the successful call on the fresh root
`/srv` there is no state record. -/
theorem no_record_written :
    (ingestAdmin "/srv" freshState).2 = none ∧
      Lstat (ingestAdmin "/srv" freshState).1 (statePath "/srv") =
        Except.error Errno.ENOENT :=
  ⟨rfl, rfl⟩

/-- C6, amended. After `ingestAdmin root` returns, with nil or with an
error, `root/ingest.state.json` is what it was before the call: the call
writes no record. -/
theorem record_as_before (root : String) (st : State) :
    Lstat (ingestAdmin root st).1 (statePath root) = Lstat st (statePath root) :=
  record_untouched root st

/-- C8. Record and file system agreement is preserved: if before the call a
record saying locked comes with an existing `root/locked`, the same holds
after the call, whether it returned nil or an error. The call never takes
`root/locked` away, and `root/in` and `root/locked` are distinct paths for
every root. -/
theorem agreement_preserved (recordsLocked : String → Bool) (root : String) (st : State)
    (h : Agrees recordsLocked root st) :
    Agrees recordsLocked root (ingestAdmin root st).1 ∧
      ((∃ n, Lstat st (Join [root, "locked"]) = Except.ok n) →
        ∃ n, Lstat (ingestAdmin root st).1 (Join [root, "locked"]) = Except.ok n) ∧
      Join [root, "in"] ≠ Join [root, "locked"] := by
  have key : (ingestAdmin root st).1 = st ∨
      ∃ n, Lstat (ingestAdmin root st).1 (Join [root, "locked"]) = Except.ok n := by
    rw [ingestAdmin_eq]
    cases hr : (transition root st).2 with
    | some e => exact Or.inl (transition_error_state root st (by rw [hr]; simp))
    | none =>
      obtain ⟨b, n, hb, hi, hl, hs⟩ := transition_success root st hr
      rw [hs]
      exact Or.inr ⟨n, (moved_entries st root b n hb hi hl).2.1⟩
  refine ⟨?_, ?_, Join_in_ne_locked root⟩
  · rcases key with hk | hk
    · rw [hk]; exact h
    · intro c _ _; exact hk
  · intro hex
    rcases key with hk | hk
    · rw [hk]; exact hex
    · exact hk

/-- C8 at the root `/srv` after a completed run, working directory inside
`locked`, root given as `..`. -/
theorem agreement_preserved_witness :
    Agrees (fun c => c == lockedRecord) ".." lockedState ∧
      Agrees (fun c => c == lockedRecord) ".." (ingestAdmin ".." lockedState).1 :=
  have h0 : Agrees (fun c => c == lockedRecord) ".." lockedState :=
    fun _ _ _ => ⟨Node.dir, rfl⟩
  ⟨h0, (agreement_preserved (fun c => c == lockedRecord) ".." lockedState h0).1⟩

/-- C9. Frame: a location that is neither `root/in`, nor `root/locked`, nor
below one of them has the same node after the call as before, and
`root/ingest.state.json` is never created, modified or removed, whether the
call succeeds or fails. -/
theorem frame_outside_in_and_locked (root : String) (st : State) (q : Path)
    (hsrc : ∀ src, namei st (Join [root, "in"]) = Except.ok src → ¬ src <+: q)
    (hdst : ∀ dst, namei st (Join [root, "locked"]) = Except.ok dst → ¬ dst <+: q) :
    nodeAt (ingestAdmin root st).1.fs q = nodeAt st.fs q ∧
      Lstat (ingestAdmin root st).1 (statePath root) = Lstat st (statePath root) := by
  refine ⟨?_, record_untouched root st⟩
  rw [ingestAdmin_eq]
  cases hr : (transition root st).2 with
  | some e => rw [transition_error_state root st (by rw [hr]; simp)]
  | none =>
    obtain ⟨b, n, hb, hi, hl, hs⟩ := transition_success root st hr
    rw [hs]
    have h1 := hsrc (b ++ ["in"]) (by rw [namei_Join st root "in" plain_in, hb])
    have h2 := hdst (b ++ ["locked"]) (by rw [namei_Join st root "locked" plain_locked, hb])
    exact nodeAt_moveTree_frame _ _ st.fs q h1 h2

/-- C9 at the root `/srv` with a failed record: the record's location keeps
its node across the successful rename. -/
theorem frame_outside_in_and_locked_witness :
    (ingestAdmin "/srv" (recordedState failedRecord)).2 = none ∧
      nodeAt (ingestAdmin "/srv" (recordedState failedRecord)).1.fs
          ["srv", "ingest.state.json"] =
        nodeAt (recordedState failedRecord).fs ["srv", "ingest.state.json"] :=
  ⟨rfl, (frame_outside_in_and_locked "/srv" (recordedState failedRecord)
    ["srv", "ingest.state.json"]
    (fun src hs => by
      have e : src = ["srv", "in"] := (Except.ok.inj hs).symm
      rw [e]; decide)
    (fun dst hd => by
      have e : dst = ["srv", "locked"] := (Except.ok.inj hd).symm
      rw [e]; decide)).1⟩

/-! ## Two states that differ in the state record only -/

end IngestAdmin
